import Mathlib

/-!
Verification of the `ratelimit` middleware (token-bucket rate limiting for an
HTTP framework).

The middleware, the in-memory store and the Redis store stub are embedded from
`ratelimit.go` and `redis.go`.  The token-bucket limiter itself lives in the
external library `golang.org/x/time/rate`, whose source is not part of this
repository; it is modelled from the specification (section 4.1).  Time stamps
and token counts are rationals (the specification treats rate as a real
number and the token count as a non-integral count in [0, burst]).

Go stores `*rate.Limiter` pointers in the stores and `Allow()` mutates the
limiter through the pointer; the embedding makes the pointer heap explicit:
a pointer is a natural-number address, the heap is part of the middleware
state, and the post-`Allow` limiter is written back to the heap.
-/

namespace Ratelimit

/-- Modelled from the spec: the state of a `TokenBucketLimiter`
(`rate.Limiter` from `golang.org/x/time/rate`, not part of this repository).
Attributes per section 3 of the spec: refill rate (tokens per unit time),
burst capacity (max tokens), current token count, last-refill timestamp. -/
structure Limiter where
  rate : ℚ
  burst : ℕ
  tokens : ℚ
  lastRefill : ℚ
deriving Repr, DecidableEq

/-- Modelled from the spec: `rate.NewLimiter(r, b)` creates a fresh limiter.
The spec's glossary defines burst as "the largest number of requests
admissible in an instantaneous burst with no intervening refill" and its
end-to-end scenario 6 requires the very first request on a fresh limiter to
be admitted, so a fresh bucket is full: `tokens = burst` at creation time. -/
def newLimiter (r : ℚ) (b : ℕ) (now : ℚ) : Limiter :=
  { rate := r, burst := b, tokens := (b : ℚ), lastRefill := now }

/-- The token count after the refill phase of `Allow()`:
`min (tokens + elapsed * rate) burst`. -/
def refillAmount (l : Limiter) (now : ℚ) : ℚ :=
  min (l.tokens + (now - l.lastRefill) * l.rate) (l.burst : ℚ)

/-- Modelled from the spec: `Allow() -> bool` (section 4.1). Compute elapsed
time since last refill; add `elapsed * rate` tokens, capped at `burst`;
update the last-refill timestamp to now; if tokens >= 1, subtract 1 and
return admit = true; else return admit = false with no deduction.  The
returned limiter is the post-call state (in Go, `Allow` mutates the limiter
in place through its pointer). -/
def allow (l : Limiter) (now : ℚ) : Bool × Limiter :=
  let refilled := refillAmount l now
  if 1 ≤ refilled then
    (true, { l with tokens := refilled - 1, lastRefill := now })
  else
    (false, { l with tokens := refilled, lastRefill := now })

/-- Run `Allow()` once per entry of `times` (each entry the clock reading at
that call), threading the limiter state; returns the list of admit decisions
and the final limiter state. -/
def allowRun (l : Limiter) (times : List ℚ) : List Bool × Limiter :=
  match times with
  | [] => ([], l)
  | t :: ts =>
      let step := allow l t
      let rest := allowRun step.2 ts
      (step.1 :: rest.1, rest.2)

/-- The part of the request context (`gin.Context`) that the middleware
reads: the client address used by the default key function. -/
structure Ctx where
  clientIP : String
deriving Repr, DecidableEq

/-- An HTTP response as produced by a reject handler: status code and body
(`c.String(status, body)` in Go). -/
structure Response where
  status : ℕ
  body : String
deriving Repr, DecidableEq

/-- The `Store` interface of `ratelimit.go` over a backend state `σ`:
`Get(key) -> (*rate.Limiter, bool)` and `Set(key, *rate.Limiter)`.  The Go
`*rate.Limiter` pointer is a heap address `ℕ`; `Get` returning
`(nil, false)` is `none`. -/
structure StoreOps (σ : Type) where
  get : σ → String → Option ℕ
  set : σ → String → ℕ → σ

/-- `memoryStore.Get` (ratelimit.go): map lookup `s.limiters[key]`.  The Go
map is embedded as an association list with unique keys; `find?` scans for
the binding of `key`. -/
def msGet {α : Type} (s : List (String × α)) (key : String) : Option α :=
  (s.find? (fun p => p.1 == key)).map (fun p => p.2)

/-- `memoryStore.Set` (ratelimit.go): map update `s.limiters[key] = limiter`,
which overwrites any previous binding of `key` and keeps keys unique. -/
def msSet {α : Type} (s : List (String × α)) (key : String) (v : α) :
    List (String × α) :=
  (key, v) :: s.filter (fun p => p.1 != key)

/-- The `memoryStore` implementation of the `Store` interface
(`newMemoryStore()` starts from the empty map `[]`). -/
def memoryStore : StoreOps (List (String × ℕ)) :=
  { get := msGet, set := msSet }

/-- The `redisStore` implementation from `redis.go`: `Get` ignores the key
and returns `(nil, false)`; `Set` does nothing.  Its backend state is
trivial (the wrapped Redis client is never consulted). -/
def redisStore : StoreOps Unit :=
  { get := fun _ _ => none, set := fun s _ _ => s }

/-- The store implementations present in the repository. -/
inductive StoreImpl where
  | memory
  | redis
deriving Repr, DecidableEq

/-- The backend state type of each store implementation. -/
def StoreImpl.State : StoreImpl → Type
  | StoreImpl.memory => List (String × ℕ)
  | StoreImpl.redis => Unit

/-- The `Store` operations of each implementation. -/
def StoreImpl.ops : (i : StoreImpl) → StoreOps i.State
  | StoreImpl.memory => memoryStore
  | StoreImpl.redis => redisStore

/-- The `Options` struct of `ratelimit.go`.  The nil-able fields
(`KeyFunc`, `Store`, `OnLimitExceeded`) are `Option`s; the reject handler
gets the request context and the limiter and produces the response it
writes. -/
structure Options where
  Rate : ℚ
  Burst : ℕ
  KeyFunc : Option (Ctx → String)
  Store : Option StoreImpl
  OnLimitExceeded : Option (Ctx → Limiter → Response)

/-- The options after `New` has filled in defaults: no field is nil. -/
structure ResolvedOptions where
  Rate : ℚ
  Burst : ℕ
  KeyFunc : Ctx → String
  Store : StoreImpl
  OnLimitExceeded : Ctx → Limiter → Response

/-- The default-filling prefix of `New` (ratelimit.go): a nil `KeyFunc`
becomes `c.ClientIP()`, a nil `Store` becomes `newMemoryStore()`, and a nil
`OnLimitExceeded` becomes a handler sending
`c.String(http.StatusTooManyRequests, "Too Many Requests")`
(status 429). -/
def New (o : Options) : ResolvedOptions :=
  { Rate := o.Rate, Burst := o.Burst,
    KeyFunc := o.KeyFunc.getD (fun c => c.clientIP),
    Store := o.Store.getD StoreImpl.memory,
    OnLimitExceeded := o.OnLimitExceeded.getD
      (fun _ _ => { status := 429, body := "Too Many Requests" }) }

/-- The mutable state threaded through middleware invocations: the store
backend state, the heap of limiter objects, and the next fresh address
(`rate.NewLimiter` allocates at the next address). -/
structure MWState (σ : Type) where
  store : σ
  heap : ℕ → Limiter
  next : ℕ

/-- The initial middleware state over an initial store backend: nothing
allocated yet (the heap function is an arbitrary filler below `next`,
which is 0). -/
def initState {σ : Type} (st : σ) : MWState σ :=
  { store := st, heap := fun _ => newLimiter 0 0 0, next := 0 }

/-- The observable outcome of one middleware invocation.  `next` means the
request was admitted and `c.Next()` ran, so the downstream handler
executes.  `rejected resp a` means `Allow()` returned false, the configured
`OnLimitExceeded` handler was invoked with the request context and the
limiter at address `a` producing response `resp`, and `c.Abort()` halted
the pipeline, so no downstream handler runs. -/
inductive Outcome where
  | next
  | rejected (resp : Response) (addr : ℕ)
deriving Repr, DecidableEq

/-- Whether an outcome let the request through (the downstream handler ran). -/
def Outcome.allowed : Outcome → Bool
  | Outcome.next => true
  | Outcome.rejected _ _ => false

/-- The request handler closure returned by `New` (ratelimit.go): extract
the key with the key function; `Store.Get(key)`; on a miss create a fresh
limiter and `Store.Set(key, limiter)`; call `limiter.Allow()` (the mutation
through the pointer is the heap write-back); on true continue the pipeline,
on false call `OnLimitExceeded(c, limiter)` and abort. -/
def mwHandle {σ : Type} (ops : StoreOps σ) (r : ℚ) (b : ℕ)
    (keyFunc : Ctx → String) (onLimitExceeded : Ctx → Limiter → Response)
    (s : MWState σ) (c : Ctx) (now : ℚ) : MWState σ × Outcome :=
  let key := keyFunc c
  let acquired :=
    match ops.get s.store key with
    | some a => (a, s)
    | none =>
        (s.next,
         { store := ops.set s.store key s.next,
           heap := Function.update s.heap s.next (newLimiter r b now),
           next := s.next + 1 })
  let addr := acquired.1
  let s1 := acquired.2
  let result := allow (s1.heap addr) now
  let s2 := { s1 with heap := Function.update s1.heap addr result.2 }
  if result.1 then
    (s2, Outcome.next)
  else
    (s2, Outcome.rejected (onLimitExceeded c result.2) addr)

/-- Process a list of requests (context and arrival time) in order,
keeping the final middleware state. -/
def mwRun {σ : Type} (ops : StoreOps σ) (r : ℚ) (b : ℕ)
    (keyFunc : Ctx → String) (onLimitExceeded : Ctx → Limiter → Response)
    (s : MWState σ) (reqs : List (Ctx × ℚ)) : MWState σ :=
  reqs.foldl (fun st rq => (mwHandle ops r b keyFunc onLimitExceeded st rq.1 rq.2).1) s

/-- The limiter currently stored under a key (through the memory store's
map and the heap), if any. -/
def limiterFor (s : MWState (List (String × ℕ))) (k : String) : Option Limiter :=
  (msGet s.store k).map s.heap

/-- Well-formedness of a memory-store middleware state: every stored
address has been allocated, and distinct bindings hold distinct addresses
(Go guarantees this because each map entry holds the pointer of the limiter
allocated for exactly that key). -/
def wf (s : MWState (List (String × ℕ))) : Prop :=
  (∀ p ∈ s.store, p.2 < s.next) ∧
  s.store.Pairwise (fun p q => p.2 ≠ q.2)

example : (allow (newLimiter 1 1 0) 0).1 = true := by
  norm_num [allow, newLimiter, refillAmount]
example : (allowRun (newLimiter 1 1 0) [0, 0]).1 = [true, false] := by
  norm_num [allowRun, allow, newLimiter, refillAmount]
example : (allowRun (newLimiter 0 1 0) [0, 5]).1 = [true, false] := by
  norm_num [allowRun, allow, newLimiter, refillAmount]

/-- C1: each `Allow()` call refills by elapsed time times rate capped at
burst, updates the last-refill timestamp to now, admits (subtracting one
token) exactly when the refilled count is at least 1, and deducts nothing
on rejection. -/
theorem allow_spec (l : Limiter) (now : ℚ) :
    (allow l now).2.lastRefill = now ∧
    (allow l now).2.rate = l.rate ∧
    (allow l now).2.burst = l.burst ∧
    ((allow l now).1 = true ↔ 1 ≤ refillAmount l now) ∧
    (1 ≤ refillAmount l now →
      (allow l now).2.tokens = refillAmount l now - 1) ∧
    (¬ 1 ≤ refillAmount l now →
      (allow l now).2.tokens = refillAmount l now) := by
  unfold allow
  by_cases h : 1 ≤ refillAmount l now <;> simp [h]

/-- Witness for C1 at a concrete input: rate 2, burst 3, one unit of time
elapsed. -/
theorem allow_spec_witness :
    (allow { rate := 2, burst := 3, tokens := 0, lastRefill := 0 } 1).2.tokens
      = refillAmount { rate := 2, burst := 3, tokens := 0, lastRefill := 0 } 1 - 1 :=
  (allow_spec { rate := 2, burst := 3, tokens := 0, lastRefill := 0 } 1).2.2.2.2.1
    (by simp [refillAmount])


/-- Helper: `Allow()` never changes the burst capacity. -/
theorem allow_burst_eq (l : Limiter) (now : ℚ) : (allow l now).2.burst = l.burst := by
  by_cases h : 1 ≤ refillAmount l now <;> simp [allow, h]

/-- Helper: `Allow()` never changes the rate. -/
theorem allow_rate_eq (l : Limiter) (now : ℚ) : (allow l now).2.rate = l.rate := by
  by_cases h : 1 ≤ refillAmount l now <;> simp [allow, h]

/-- C5: under non-negative rate, forward time and a non-negative current
count, one `Allow()` call keeps the token count within `[0, burst]`;
the call admits exactly when at least one token is available after refill,
and then deducts exactly one token. -/
theorem allow_tokens_range (l : Limiter) (now : ℚ)
    (hr : 0 ≤ l.rate) (ht : l.lastRefill ≤ now) (h0 : 0 ≤ l.tokens) :
    0 ≤ (allow l now).2.tokens ∧ (allow l now).2.tokens ≤ ((allow l now).2.burst : ℚ) ∧
    ((allow l now).1 = true ↔ 1 ≤ refillAmount l now) ∧
    ((allow l now).1 = true →
      (allow l now).2.tokens = refillAmount l now - 1) := by
  have hnn : 0 ≤ refillAmount l now := by
    unfold refillAmount
    exact le_min (add_nonneg h0 (mul_nonneg (sub_nonneg.mpr ht) hr)) (Nat.cast_nonneg _)
  have hub : refillAmount l now ≤ (l.burst : ℚ) := by
    unfold refillAmount
    exact min_le_right _ _
  by_cases h : 1 ≤ refillAmount l now
  · have hstep : allow l now =
        (true, { l with tokens := refillAmount l now - 1, lastRefill := now }) := by
      simp [allow, h]
    rw [hstep]
    exact ⟨by change (0 : ℚ) ≤ refillAmount l now - 1; linarith,
           by change refillAmount l now - 1 ≤ (l.burst : ℚ); linarith,
           by simpa using h,
           fun _ => rfl⟩
  · have hstep : allow l now =
        (false, { l with tokens := refillAmount l now, lastRefill := now }) := by
      simp [allow, h]
    rw [hstep]
    exact ⟨hnn, hub, by simp [h], fun hc => by simp at hc⟩

/-- Witness for C5: rate 1, burst 2, empty bucket, five units elapsed. -/
theorem allow_tokens_range_witness :
    0 ≤ (allow { rate := 1, burst := 2, tokens := 0, lastRefill := 0 } 5).2.tokens ∧
    (allow { rate := 1, burst := 2, tokens := 0, lastRefill := 0 } 5).2.tokens
      ≤ ((allow { rate := 1, burst := 2, tokens := 0, lastRefill := 0 } 5).2.burst : ℚ) ∧
    ((allow { rate := 1, burst := 2, tokens := 0, lastRefill := 0 } 5).1 = true ↔
      1 ≤ refillAmount { rate := 1, burst := 2, tokens := 0, lastRefill := 0 } 5) ∧
    ((allow { rate := 1, burst := 2, tokens := 0, lastRefill := 0 } 5).1 = true →
      (allow { rate := 1, burst := 2, tokens := 0, lastRefill := 0 } 5).2.tokens
        = refillAmount { rate := 1, burst := 2, tokens := 0, lastRefill := 0 } 5 - 1) :=
  allow_tokens_range { rate := 1, burst := 2, tokens := 0, lastRefill := 0 } 5
    (by norm_num) (by norm_num) (by norm_num)

/-- Helper for C2: with a constant clock equal to the last-refill
timestamp no tokens accrue, so the number of admits in a same-instant run
is bounded by the starting token count. -/
theorem count_true_le_tokens_const (n : ℕ) :
    ∀ (l : Limiter) (t : ℚ), l.lastRefill = t → 0 ≤ l.tokens →
      l.tokens ≤ (l.burst : ℚ) →
      (((allowRun l (List.replicate n t)).1.count true : ℚ)) ≤ l.tokens := by
  induction n with
  | zero =>
      intro l t _ h0 _
      simpa [allowRun] using h0
  | succ n ih =>
      intro l t hlast h0 hb
      have hrefill : refillAmount l t = l.tokens := by
        simp [refillAmount, hlast, min_eq_left hb]
      rw [List.replicate_succ]
      by_cases h : 1 ≤ refillAmount l t
      · have h1 : (1 : ℚ) ≤ l.tokens := by rw [hrefill] at h; exact h
        have hstep : allow l t =
            (true, { l with tokens := l.tokens - 1, lastRefill := t }) := by
          simp [allow, hrefill, h1]
        have hdec : (allowRun l (t :: List.replicate n t)).1 =
            true :: (allowRun { l with tokens := l.tokens - 1, lastRefill := t }
              (List.replicate n t)).1 := by
          simp [allowRun, hstep]
        have ihr : ((allowRun { l with tokens := l.tokens - 1, lastRefill := t }
            (List.replicate n t)).1.count true : ℚ) ≤ l.tokens - 1 :=
          ih { l with tokens := l.tokens - 1, lastRefill := t } t rfl
            (by change (0 : ℚ) ≤ l.tokens - 1; linarith)
            (by change l.tokens - 1 ≤ (l.burst : ℚ); linarith)
        rw [hdec, List.count_cons_self]
        push_cast
        push_cast at ihr
        linarith
      · have hl : ¬ (1 : ℚ) ≤ l.tokens := by rw [hrefill] at h; exact h
        have hstep : allow l t =
            (false, { l with tokens := l.tokens, lastRefill := t }) := by
          simp [allow, hrefill, hl]
        have hdec : (allowRun l (t :: List.replicate n t)).1 =
            false :: (allowRun { l with tokens := l.tokens, lastRefill := t }
              (List.replicate n t)).1 := by
          simp [allowRun, hstep]
        have ihr : ((allowRun { l with tokens := l.tokens, lastRefill := t }
            (List.replicate n t)).1.count true : ℚ) ≤ l.tokens :=
          ih { l with tokens := l.tokens, lastRefill := t } t rfl
            (by change (0 : ℚ) ≤ l.tokens; exact h0)
            (by change l.tokens ≤ (l.burst : ℚ); exact hb)
        rw [hdec]
        simpa [List.count_cons] using ihr

/-- C2: a fresh limiter with burst `b` admits at most `b` of any number of
`Allow()` calls made with no elapsed time. -/
theorem burst_bound (r : ℚ) (b : ℕ) (t : ℚ) (n : ℕ) :
    (allowRun (newLimiter r b t) (List.replicate n t)).1.count true ≤ b := by
  have h := count_true_le_tokens_const n (newLimiter r b t) t rfl
    (Nat.cast_nonneg b) (le_refl _)
  rw [show (newLimiter r b t).tokens = (b : ℚ) from rfl] at h
  exact_mod_cast h


/-- Helper: a limiter with burst capacity 0 rejects every call (the refill
is capped at 0, which is below 1). -/
theorem allow_false_of_burst_zero (l : Limiter) (now : ℚ) (hb : l.burst = 0) :
    (allow l now).1 = false := by
  have hub : refillAmount l now ≤ (l.burst : ℚ) := by
    unfold refillAmount
    exact min_le_right _ _
  have hno : ¬ 1 ≤ refillAmount l now := by
    rw [hb] at hub
    push_cast at hub
    intro hc
    linarith
  simp [allow, hno]

/-- Helper: a burst-0 limiter admits nothing over any run. -/
theorem count_true_burst_zero (times : List ℚ) :
    ∀ l : Limiter, l.burst = 0 → (allowRun l times).1.count true = 0 := by
  induction times with
  | nil =>
      intro l _
      simp [allowRun]
  | cons t ts ih =>
      intro l hb
      have hfalse := allow_false_of_burst_zero l t hb
      have hb' : (allow l t).2.burst = 0 := by rw [allow_burst_eq]; exact hb
      have hdec : (allowRun l (t :: ts)).1 =
          (allow l t).1 :: (allowRun (allow l t).2 ts).1 := by
        simp [allowRun]
      rw [hdec, hfalse]
      simp [List.count_cons, ih _ hb']

/-- Helper: a rate-0 limiter never accrues tokens, so over any run the
number of admits is bounded by the starting token count. -/
theorem count_true_le_tokens_rate_zero (times : List ℚ) :
    ∀ l : Limiter, l.rate = 0 → 0 ≤ l.tokens → l.tokens ≤ (l.burst : ℚ) →
      ((allowRun l times).1.count true : ℚ) ≤ l.tokens := by
  induction times with
  | nil =>
      intro l _ h0 _
      simpa [allowRun] using h0
  | cons t ts ih =>
      intro l hr h0 hb
      have hrefill : refillAmount l t = l.tokens := by
        simp [refillAmount, hr, min_eq_left hb]
      by_cases h : 1 ≤ refillAmount l t
      · have h1 : (1 : ℚ) ≤ l.tokens := by rw [hrefill] at h; exact h
        have hstep : allow l t =
            (true, { l with tokens := l.tokens - 1, lastRefill := t }) := by
          simp [allow, hrefill, h1]
        have hdec : (allowRun l (t :: ts)).1 =
            true :: (allowRun { l with tokens := l.tokens - 1, lastRefill := t } ts).1 := by
          simp [allowRun, hstep]
        have ihr : ((allowRun { l with tokens := l.tokens - 1, lastRefill := t }
            ts).1.count true : ℚ) ≤ l.tokens - 1 :=
          ih { l with tokens := l.tokens - 1, lastRefill := t }
            (by change l.rate = 0; exact hr)
            (by change (0 : ℚ) ≤ l.tokens - 1; linarith)
            (by change l.tokens - 1 ≤ (l.burst : ℚ); linarith)
        rw [hdec, List.count_cons_self]
        push_cast
        push_cast at ihr
        linarith
      · have hl : ¬ (1 : ℚ) ≤ l.tokens := by rw [hrefill] at h; exact h
        have hstep : allow l t =
            (false, { l with tokens := l.tokens, lastRefill := t }) := by
          simp [allow, hrefill, hl]
        have hdec : (allowRun l (t :: ts)).1 =
            false :: (allowRun { l with tokens := l.tokens, lastRefill := t } ts).1 := by
          simp [allowRun, hstep]
        have ihr : ((allowRun { l with tokens := l.tokens, lastRefill := t }
            ts).1.count true : ℚ) ≤ l.tokens :=
          ih { l with tokens := l.tokens, lastRefill := t }
            (by change l.rate = 0; exact hr)
            (by change (0 : ℚ) ≤ l.tokens; exact h0)
            (by change l.tokens ≤ (l.burst : ℚ); exact hb)
        rw [hdec]
        simpa [List.count_cons] using ihr

/-- C4 counterexample: a middleware with rate 0 and burst 1 over the
in-memory store admits its very first request (the fresh bucket starts
full), so "rate = 0 rejects every request" is false. -/
theorem rate_zero_request_admitted :
    (mwHandle memoryStore 0 1 (fun c => c.clientIP)
        (fun _ _ => { status := 429, body := "Too Many Requests" })
        (initState []) { clientIP := "client" } 0).2 = Outcome.next := by
  norm_num [mwHandle, memoryStore, msGet, initState, allow, refillAmount,
    newLimiter, Function.update]

/-- C4 amended: a limiter with burst 0 rejects every request; a limiter
with rate 0 never refills, so at most its initial burst of requests is
ever admitted (construction itself never fails). -/
theorem degenerate_config_bound (r : ℚ) (b : ℕ) (t : ℚ) (times : List ℚ) :
    (allowRun (newLimiter r 0 t) times).1.count true = 0 ∧
    (allowRun (newLimiter 0 b t) times).1.count true ≤ b := by
  constructor
  · exact count_true_burst_zero times (newLimiter r 0 t) rfl
  · have h := count_true_le_tokens_rate_zero times (newLimiter 0 b t) rfl
      (Nat.cast_nonneg b) (le_refl _)
    rw [show (newLimiter 0 b t).tokens = (b : ℚ) from rfl] at h
    exact_mod_cast h


/-- C9: the Redis-backed store performs no persistence: `Get` returns
`(nil, false)` for every key and `Set` is a no-op on its state. -/
theorem redisStore_stub (s : Unit) (key : String) (a : ℕ) :
    redisStore.get s key = none ∧ redisStore.set s key a = s :=
  ⟨rfl, rfl⟩

/-- C7: with nil `KeyFunc`, `Store` and `OnLimitExceeded`, `New` uses the
client address as key, the in-process map store, and a reject handler
responding 429 with a short plain-text message. -/
theorem New_defaults (r : ℚ) (b : ℕ) (c : Ctx) (l : Limiter) :
    (New { Rate := r, Burst := b, KeyFunc := none, Store := none,
           OnLimitExceeded := none }).KeyFunc c = c.clientIP ∧
    (New { Rate := r, Burst := b, KeyFunc := none, Store := none,
           OnLimitExceeded := none }).Store = StoreImpl.memory ∧
    (New { Rate := r, Burst := b, KeyFunc := none, Store := none,
           OnLimitExceeded := none }).OnLimitExceeded c l
      = { status := 429, body := "Too Many Requests" } :=
  ⟨rfl, rfl, rfl⟩

/-- C10: over the Redis-backed store every lookup misses, so each request
gets a fresh limiter; with burst at least 1 and a positive rate, the fresh
full bucket admits the request, so the pipeline always continues and the
reject handler never runs. -/
theorem redis_store_never_rejects (s : MWState Unit) (kf : Ctx → String)
    (onLE : Ctx → Limiter → Response) (c : Ctx) (now r : ℚ) (b : ℕ)
    (hb : 1 ≤ b) (hr : 0 < r) :
    (mwHandle redisStore r b kf onLE s c now).2 = Outcome.next := by
  have hfresh : refillAmount (newLimiter r b now) now = (b : ℚ) := by
    simp [refillAmount, newLimiter]
  have h1 : 1 ≤ refillAmount (newLimiter r b now) now := by
    rw [hfresh]
    exact_mod_cast hb
  simp [mwHandle, redisStore, allow, Function.update_same, h1]

/-- Witness for C10: rate 1, burst 1, a request at time 3 on the initial
state. -/
theorem redis_store_never_rejects_witness :
    (mwHandle redisStore 1 1 (fun c => c.clientIP)
        (fun _ _ => { status := 429, body := "Too Many Requests" })
        (initState ()) { clientIP := "x" } 3).2 = Outcome.next :=
  redis_store_never_rejects (initState ()) (fun c => c.clientIP)
    (fun _ _ => { status := 429, body := "Too Many Requests" })
    { clientIP := "x" } 3 1 1 (le_refl 1) (by norm_num)

/-- C3: the middleware's control flow over any store backend.  On a lookup
miss it creates a fresh limiter and stores it under the key; on a hit the
store is unchanged.  `Allow()` runs on the found-or-created limiter (the
heap write-back is the pointer mutation); on true the pipeline continues
(`Outcome.next`); on false the reject handler receives the request context
and the limiter, and the pipeline halts with its response. -/
theorem middleware_control_flow {σ : Type} (ops : StoreOps σ) (r : ℚ) (b : ℕ)
    (kf : Ctx → String) (onLE : Ctx → Limiter → Response)
    (s : MWState σ) (c : Ctx) (now : ℚ) :
    (ops.get s.store (kf c) = none →
      (mwHandle ops r b kf onLE s c now).1.store = ops.set s.store (kf c) s.next ∧
      (mwHandle ops r b kf onLE s c now).1.heap s.next
        = (allow (newLimiter r b now) now).2 ∧
      ((mwHandle ops r b kf onLE s c now).2 = Outcome.next ↔
        (allow (newLimiter r b now) now).1 = true) ∧
      ((allow (newLimiter r b now) now).1 = false →
        (mwHandle ops r b kf onLE s c now).2 =
          Outcome.rejected (onLE c (allow (newLimiter r b now) now).2) s.next)) ∧
    (∀ a, ops.get s.store (kf c) = some a →
      (mwHandle ops r b kf onLE s c now).1.store = s.store ∧
      (mwHandle ops r b kf onLE s c now).1.heap a = (allow (s.heap a) now).2 ∧
      ((mwHandle ops r b kf onLE s c now).2 = Outcome.next ↔
        (allow (s.heap a) now).1 = true) ∧
      ((allow (s.heap a) now).1 = false →
        (mwHandle ops r b kf onLE s c now).2 =
          Outcome.rejected (onLE c (allow (s.heap a) now).2) a)) := by
  constructor
  · intro hmiss
    cases hok : (allow (newLimiter r b now) now).1 <;>
      simp [mwHandle, hmiss, hok, Function.update_same]
  · intro a hhit
    cases hok : (allow (s.heap a) now).1 <;>
      simp [mwHandle, hhit, hok, Function.update_same]

/-- Witness for C3: a first request on the empty in-memory store misses
and stores the fresh limiter under the extracted key. -/
theorem middleware_control_flow_witness :
    (mwHandle memoryStore 1 1 (fun c => c.clientIP)
        (fun _ _ => { status := 429, body := "Too Many Requests" })
        (initState []) { clientIP := "x" } 0).1.store
      = memoryStore.set (initState ([] : List (String × ℕ))).store "x"
          (initState ([] : List (String × ℕ))).next :=
  ((middleware_control_flow memoryStore 1 1 (fun c => c.clientIP)
      (fun _ _ => { status := 429, body := "Too Many Requests" })
      (initState []) { clientIP := "x" } 0).1 rfl).1


/-- Helper: get-after-set on the in-memory map finds the just-set value. -/
theorem msGet_msSet_same {α : Type} (s : List (String × α)) (k : String) (v : α) :
    msGet (msSet s k v) k = some v := by
  simp [msGet, msSet, List.find?_cons]

/-- Helper: filtering out another key's binding does not change which
binding `find?` locates for this key. -/
theorem find?_filter_other {α : Type} (k k' : String) (h : k' ≠ k)
    (s : List (String × α)) :
    (s.filter (fun p => p.1 != k')).find? (fun p => p.1 == k)
      = s.find? (fun p => p.1 == k) := by
  induction s with
  | nil => simp
  | cons p ps ih =>
      by_cases hpk : p.1 = k
      · have h1 : (p.1 != k') = true := by simp [hpk, Ne.symm h]
        simp [List.filter_cons, h1, List.find?_cons, hpk, Ne.symm h]
      · by_cases hpk' : p.1 = k'
        · simp [List.filter_cons, hpk', hpk, List.find?_cons, ih, h]
        · simp [List.filter_cons, hpk', hpk, List.find?_cons, ih, h]

/-- Helper: setting one key leaves every other key's lookup unchanged. -/
theorem msGet_msSet_other {α : Type} (s : List (String × α)) (k k' : String)
    (v' : α) (h : k' ≠ k) :
    msGet (msSet s k' v') k = msGet s k := by
  have hbeq : (k' == k) = false := by simp [h]
  simp [msGet, msSet, List.find?_cons, hbeq, find?_filter_other k k' h s]

/-- Helper: a sequence of sets under other keys leaves a key's lookup
unchanged. -/
theorem msGet_foldl_other {α : Type} (k : String) (later : List (String × α)) :
    ∀ acc : List (String × α), (∀ p ∈ later, p.1 ≠ k) →
      msGet (later.foldl (fun acc p => msSet acc p.1 p.2) acc) k = msGet acc k := by
  induction later with
  | nil => intro acc _; rfl
  | cons q qs ih =>
      intro acc hh
      rw [List.foldl_cons]
      rw [ih (msSet acc q.1 q.2) (fun p hp => hh p (List.mem_cons_of_mem q hp))]
      exact msGet_msSet_other acc k q.1 q.2 (hh q (List.mem_cons_self q qs))

/-- C6: the in-memory store behaves as a mapping with unique keys:
get-after-set returns the set value, a later set under the same key
overwrites, sets under other keys never intervene, and a key never set is
not found. -/
theorem memoryStore_map_laws {α : Type} (s : List (String × α)) (k : String)
    (v : α) :
    msGet (msSet s k v) k = some v ∧
    (∀ v', msGet (msSet (msSet s k v) k v') k = some v') ∧
    (∀ later : List (String × α), (∀ p ∈ later, p.1 ≠ k) →
      msGet (later.foldl (fun acc p => msSet acc p.1 p.2) (msSet s k v)) k
        = some v) ∧
    (∀ later : List (String × α), (∀ p ∈ later, p.1 ≠ k) →
      msGet (later.foldl (fun acc p => msSet acc p.1 p.2)
        ([] : List (String × α))) k = none) := by
  refine ⟨msGet_msSet_same s k v, fun v' => msGet_msSet_same _ k v',
    fun later hh => ?_, fun later hh => ?_⟩
  · rw [msGet_foldl_other k later (msSet s k v) hh]
    exact msGet_msSet_same s k v
  · rw [msGet_foldl_other k later [] hh]
    rfl

/-- Witness for C6: after setting key "a" then key "b", key "a" still maps
to its value, and an unset key is absent. -/
theorem memoryStore_map_laws_witness :
    msGet (msSet (msSet ([] : List (String × ℕ)) "a" 1) "b" 2) "a" = some 1 ∧
    msGet (msSet ([] : List (String × ℕ)) "b" 2) "a" = none :=
  ⟨(memoryStore_map_laws ([] : List (String × ℕ)) "a" 1).2.2.1 [("b", 2)]
      (by decide),
   (memoryStore_map_laws ([] : List (String × ℕ)) "a" 1).2.2.2 [("b", 2)]
      (by decide)⟩

/-- Helper: a successful lookup exposes its binding as a member of the
association list. -/
theorem msGet_mem {α : Type} {s : List (String × α)} {k : String} {a : α}
    (h : msGet s k = some a) : (k, a) ∈ s := by
  induction s with
  | nil => simp [msGet] at h
  | cons p ps ih =>
      obtain ⟨p1, p2⟩ := p
      by_cases hpk : p1 = k
      · have hbeq : (((p1, p2) : String × α).1 == k) = true := by simp [hpk]
        simp only [msGet, List.find?_cons, hbeq] at h
        simp at h
        subst hpk
        subst h
        exact List.mem_cons_self _ _
      · have hbeq : (((p1, p2) : String × α).1 == k) = false := by simp [hpk]
        simp only [msGet, List.find?_cons, hbeq] at h
        exact List.mem_cons_of_mem _ (ih h)

/-- Helper: with pairwise-distinct addresses, two keys resolving to the
same address are the same key. -/
theorem msGet_inj {s : List (String × ℕ)}
    (hpw : s.Pairwise (fun p q => p.2 ≠ q.2)) {k1 k2 : String} {a : ℕ}
    (h1 : msGet s k1 = some a) (h2 : msGet s k2 = some a) : k1 = k2 := by
  by_contra hne
  have m1 := msGet_mem h1
  have m2 := msGet_mem h2
  have hdiff : (k1, a) ≠ (k2, a) := by simp [hne]
  exact absurd rfl
    (@List.Pairwise.forall (String × ℕ) (fun p q => p.2 ≠ q.2) s
      (fun _ _ hh => Ne.symm hh) hpw (k1, a) m1 (k2, a) m2 hdiff)

/-- Helper: the state after a store hit — the store map and allocation
counter are unchanged, only the hit limiter is mutated. -/
theorem mwHandle_hit {σ : Type} (ops : StoreOps σ) (r : ℚ) (b : ℕ)
    (kf : Ctx → String) (onLE : Ctx → Limiter → Response)
    (s : MWState σ) (c : Ctx) (now : ℚ) (a : ℕ)
    (hget : ops.get s.store (kf c) = some a) :
    (mwHandle ops r b kf onLE s c now).1 =
      { store := s.store,
        heap := Function.update s.heap a (allow (s.heap a) now).2,
        next := s.next } := by
  cases hok : (allow (s.heap a) now).1 <;> simp [mwHandle, hget, hok]

/-- Helper: the state after a store miss — the key is bound to a freshly
allocated limiter, on which `Allow()` then runs. -/
theorem mwHandle_miss {σ : Type} (ops : StoreOps σ) (r : ℚ) (b : ℕ)
    (kf : Ctx → String) (onLE : Ctx → Limiter → Response)
    (s : MWState σ) (c : Ctx) (now : ℚ)
    (hget : ops.get s.store (kf c) = none) :
    (mwHandle ops r b kf onLE s c now).1 =
      { store := ops.set s.store (kf c) s.next,
        heap := Function.update
          (Function.update s.heap s.next (newLimiter r b now)) s.next
          (allow (newLimiter r b now) now).2,
        next := s.next + 1 } := by
  cases hok : (allow (newLimiter r b now) now).1 <;>
    simp [mwHandle, hget, hok, Function.update_same]

/-- Helper: over the memory store the admit decision of one invocation
depends only on the limiter currently stored under the request's key (a
fresh full bucket when absent). -/
theorem mwHandle_allowed (r : ℚ) (b : ℕ) (kf : Ctx → String)
    (onLE : Ctx → Limiter → Response) (s : MWState (List (String × ℕ)))
    (c : Ctx) (now : ℚ) :
    (mwHandle memoryStore r b kf onLE s c now).2.allowed =
      (allow ((limiterFor s (kf c)).getD (newLimiter r b now)) now).1 := by
  cases hget : msGet s.store (kf c) with
  | none =>
      have hl : limiterFor s (kf c) = none := by simp [limiterFor, hget]
      cases hok : (allow (newLimiter r b now) now).1 <;>
        simp [mwHandle, memoryStore, hget, hok, hl, Outcome.allowed,
          Function.update_same]
  | some a =>
      have hl : limiterFor s (kf c) = some (s.heap a) := by
        simp [limiterFor, hget]
      cases hok : (allow (s.heap a) now).1 <;>
        simp [mwHandle, memoryStore, hget, hok, hl, Outcome.allowed]

/-- Helper: one invocation over the memory store preserves
well-formedness. -/
theorem mwHandle_wf (r : ℚ) (b : ℕ) (kf : Ctx → String)
    (onLE : Ctx → Limiter → Response) (s : MWState (List (String × ℕ)))
    (c : Ctx) (now : ℚ) (hw : wf s) :
    wf (mwHandle memoryStore r b kf onLE s c now).1 := by
  obtain ⟨hbound, hpw⟩ := hw
  cases hget : msGet s.store (kf c) with
  | some a =>
      rw [mwHandle_hit memoryStore r b kf onLE s c now a hget]
      exact ⟨hbound, hpw⟩
  | none =>
      rw [mwHandle_miss memoryStore r b kf onLE s c now hget]
      constructor
      · intro p hp
        rcases List.mem_cons.mp hp with he | hmem
        · rw [he]
          exact Nat.lt_succ_self _
        · exact Nat.lt_trans (hbound p (List.mem_of_mem_filter hmem))
            (Nat.lt_succ_self _)
      · refine List.Pairwise.cons ?_
          (List.Pairwise.sublist (List.filter_sublist _) hpw)
        intro q hq
        exact Ne.symm (Nat.ne_of_lt
          (hbound q (List.mem_of_mem_filter hq)))

/-- Helper: a request under one key leaves the limiter stored under any
other key untouched. -/
theorem mwHandle_frame (r : ℚ) (b : ℕ) (kf : Ctx → String)
    (onLE : Ctx → Limiter → Response) (s : MWState (List (String × ℕ)))
    (c : Ctx) (now : ℚ) (hw : wf s) (k : String) (hk : kf c ≠ k) :
    limiterFor (mwHandle memoryStore r b kf onLE s c now).1 k
      = limiterFor s k := by
  obtain ⟨hbound, hpw⟩ := hw
  cases hget : msGet s.store (kf c) with
  | some a =>
      rw [mwHandle_hit memoryStore r b kf onLE s c now a hget]
      cases hmk : msGet s.store k with
      | none => simp [limiterFor, hmk]
      | some ak =>
          have hne : a ≠ ak := by
            intro he
            exact hk (msGet_inj hpw hget (he ▸ hmk))
          simp [limiterFor, hmk, Function.update_noteq (Ne.symm hne)]
  | none =>
      rw [mwHandle_miss memoryStore r b kf onLE s c now hget]
      have hstore : msGet (msSet s.store (kf c) s.next) k = msGet s.store k :=
        msGet_msSet_other s.store k (kf c) s.next hk
      cases hmk : msGet s.store k with
      | none => simp [limiterFor, memoryStore, hstore, hmk]
      | some ak =>
          have hne : ak ≠ s.next :=
            Nat.ne_of_lt (hbound (k, ak) (msGet_mem hmk))
          simp [limiterFor, memoryStore, hstore, hmk,
            Function.update_noteq hne]

/-- C8: requests under key A (over the in-memory store, from a well-formed
state) leave the limiter stored under a different key B unchanged, and the
admit decision of the next request under key B is the same as if the key-A
requests had not happened. -/
theorem per_key_isolation (r : ℚ) (b : ℕ) (kf : Ctx → String)
    (onLE : Ctx → Limiter → Response) (s : MWState (List (String × ℕ)))
    (reqs : List (Ctx × ℚ)) (A : String) (cB : Ctx) (tB : ℚ)
    (hw : wf s) (hA : ∀ rq ∈ reqs, kf rq.1 = A) (hAB : A ≠ kf cB) :
    limiterFor (mwRun memoryStore r b kf onLE s reqs) (kf cB)
      = limiterFor s (kf cB) ∧
    (mwHandle memoryStore r b kf onLE
        (mwRun memoryStore r b kf onLE s reqs) cB tB).2.allowed
      = (mwHandle memoryStore r b kf onLE s cB tB).2.allowed := by
  have main : ∀ (rs : List (Ctx × ℚ)) (st : MWState (List (String × ℕ))),
      wf st → (∀ rq ∈ rs, kf rq.1 = A) →
      limiterFor (mwRun memoryStore r b kf onLE st rs) (kf cB)
          = limiterFor st (kf cB) ∧
        wf (mwRun memoryStore r b kf onLE st rs) := by
    intro rs
    induction rs with
    | nil => intro st hws _; exact ⟨rfl, hws⟩
    | cons rq rest ih =>
        intro st hws hAq
        have hkey : kf rq.1 = A := hAq rq (List.mem_cons_self rq rest)
        have hne : kf rq.1 ≠ kf cB := by rw [hkey]; exact hAB
        have hstep_wf := mwHandle_wf r b kf onLE st rq.1 rq.2 hws
        have hstep_frame :=
          mwHandle_frame r b kf onLE st rq.1 rq.2 hws (kf cB) hne
        have hrest := ih (mwHandle memoryStore r b kf onLE st rq.1 rq.2).1
          hstep_wf (fun q hq => hAq q (List.mem_cons_of_mem rq hq))
        rw [show mwRun memoryStore r b kf onLE st (rq :: rest)
              = mwRun memoryStore r b kf onLE
                  (mwHandle memoryStore r b kf onLE st rq.1 rq.2).1 rest
            from rfl]
        exact ⟨hrest.1.trans hstep_frame, hrest.2⟩
  obtain ⟨hfr, _⟩ := main reqs s hw hA
  refine ⟨hfr, ?_⟩
  rw [mwHandle_allowed, mwHandle_allowed, hfr]

/-- Witness for C8: one request under key "a" does not change the decision
for a request under key "b" on the initial state. -/
theorem per_key_isolation_witness :
    limiterFor (mwRun memoryStore 1 1 (fun c => c.clientIP)
        (fun _ _ => { status := 429, body := "Too Many Requests" })
        (initState []) [({ clientIP := "a" }, 0)]) "b"
      = limiterFor (initState []) "b" ∧
    (mwHandle memoryStore 1 1 (fun c => c.clientIP)
        (fun _ _ => { status := 429, body := "Too Many Requests" })
        (mwRun memoryStore 1 1 (fun c => c.clientIP)
          (fun _ _ => { status := 429, body := "Too Many Requests" })
          (initState []) [({ clientIP := "a" }, 0)])
        { clientIP := "b" } 0).2.allowed
      = (mwHandle memoryStore 1 1 (fun c => c.clientIP)
          (fun _ _ => { status := 429, body := "Too Many Requests" })
          (initState []) { clientIP := "b" } 0).2.allowed :=
  per_key_isolation 1 1 (fun c => c.clientIP)
    (fun _ _ => { status := 429, body := "Too Many Requests" })
    (initState []) [({ clientIP := "a" }, 0)] "a" { clientIP := "b" } 0
    ⟨fun p hp => absurd hp (List.not_mem_nil p), List.Pairwise.nil⟩
    (fun rq hrq => by rw [List.mem_singleton] at hrq; rw [hrq])
    (by decide)

end Ratelimit
